import Mathlib

/-!
Shallow embedding of the `analyse` package of the jiebago repository
(file `analyse/tag_extracker.go`) together with theorems about the two
keyword extractors `ExtractTags` and `CNExtractTags`.

Embedding conventions:
* A Go string is embedded as its sequence of runes, `Str := List Char`.
  The lexicographic order on `List Char` coincides with the bytewise
  comparison Go performs on UTF-8 strings, because UTF-8 preserves the
  code-point order.  `str` converts a Lean string literal to `Str`.
* `float64` values are embedded as exact rationals (`ℚ`).
* A Go `map[string]float64` is embedded as an association list in insertion
  order; `m[k] = v` either overwrites the entry holding `k` or appends a new
  one.  Iterating a Go map visits each entry exactly once in an unspecified
  order; every result below that depends on an iteration is either
  order-insensitive or followed by the final sort, whose outcome is unique
  because the comparator is antisymmetric on lists with pairwise distinct
  texts.  The association list is therefore a faithful refinement.
* `sort.Sort(sort.Reverse(ws))` guarantees a permutation of `ws` that is
  pairwise ordered by the negation of the reversed `Segments.Less`
  comparator; it is embedded as `List.insertionSort revLE` where
  `revLE a b = ¬ Segments.Less a b`.  Since all texts occurring in `ws` are
  distinct, that sorted permutation is unique, so the unstable Go sort and
  `insertionSort` produce the same list.
* Collaborators whose code is not part of the analysed source (the
  segmenter, the IDF dictionary and the stop-word dictionary internals) are
  modelled from the specification, as marked in their doc comments.
-/

namespace Jiebago

/-- A Go string, embedded as its sequence of runes. -/
abbrev Str := List Char

/-- The rune sequence of a Lean string literal. -/
def str (s : String) : Str := s.data

/-- `strings.TrimSpace`: drop whitespace runes from both ends.  The source
uses the Unicode white-space class; it is modelled on the ASCII white-space
runes, the only ones exercised here. -/
def trimSpace (w : Str) : Str :=
  ((w.dropWhile Char.isWhitespace).reverse.dropWhile Char.isWhitespace).reverse

/-- Modelled from the spec: the segmentation collaborator
(`jiebago.Segmenter`).  `Cut(sentence, hmm)` produces a finite sequence of
token strings; the dictionary state loaded into the segmenter is abstracted
into the cut function itself. -/
structure Segmenter where
  cut : Str → Bool → List Str

/-- Modelled from the spec: the stop-word dictionary (`analyse.StopWord`),
a set of tokens that is read-only after load. -/
structure StopWord where
  words : List Str

/-- Modelled from the spec, section 4.1: `IsStopWord(token)` returns true
for any token present in the backing set and false otherwise, including for
the empty or unloaded state. -/
def StopWord.IsStopWord (s : StopWord) (w : Str) : Bool :=
  s.words.contains w

/-- Modelled from the spec: `NewStopWord` creates a stop-word dictionary
whose backing set is empty. -/
def NewStopWord : StopWord := ⟨[]⟩

/-- Modelled from the spec, section 4.2: the IDF table, a mapping from token
to a precomputed IDF value plus one scalar `median` used as fallback. -/
structure Idf where
  table : List (Str × ℚ)
  median : ℚ

/-- Modelled from the spec, section 4.2: `Frequency(token) -> (value, found)`
returns the stored IDF value when the token is a key; `none` embeds
`found = false`. -/
def Idf.Frequency (i : Idf) (k : Str) : Option ℚ :=
  i.table.lookup k

/-- `Segment` represents a word with weight (source lines 13-16). -/
structure Segment where
  text : Str
  weight : ℚ
deriving DecidableEq

/-- The comparator `Segments.Less` (source lines 36-42) as a binary relation
on elements: when the weights are equal it compares the texts with `<`,
otherwise it compares the weights with `<`. -/
def Segments.Less (a b : Segment) : Prop :=
  if a.weight = b.weight then a.text < b.text else a.weight < b.weight

instance (a b : Segment) : Decidable (Segments.Less a b) := by
  unfold Segments.Less
  infer_instance

/-- The pairwise order established by `sort.Sort(sort.Reverse(ws))` (source
line 117): element `a` may precede element `b` exactly when
`¬ Segments.Less a b`. -/
def revLE (a b : Segment) : Prop :=
  ¬ Segments.Less a b

instance (a b : Segment) : Decidable (revLE a b) := by
  unfold revLE
  infer_instance

instance : IsTotal Segment revLE := by
  constructor
  intro a b
  unfold revLE Segments.Less
  by_cases h : a.weight = b.weight
  · rw [if_pos h, if_pos h.symm]
    rcases lt_or_le a.text b.text with ht | ht
    · exact Or.inr (not_lt.mpr (le_of_lt ht))
    · exact Or.inl (not_lt.mpr ht)
  · rw [if_neg h, if_neg (fun e => h e.symm)]
    rcases lt_or_le a.weight b.weight with hw | hw
    · exact Or.inr (not_lt.mpr (le_of_lt hw))
    · exact Or.inl (not_lt.mpr hw)

instance : IsTrans Segment revLE := by
  constructor
  intro a b c hab hbc
  unfold revLE Segments.Less at hab hbc ⊢
  by_cases h1 : a.weight = b.weight <;> by_cases h2 : b.weight = c.weight
  · rw [if_pos h1] at hab
    rw [if_pos h2] at hbc
    rw [if_pos (h1.trans h2)]
    intro hac
    exact hab (lt_of_lt_of_le hac (not_lt.mp hbc))
  · rw [if_neg (fun e => h2 (h1.symm.trans e))]
    rw [if_neg h2] at hbc
    intro hac
    exact hbc (h1.symm.trans_lt hac)
  · rw [if_neg (fun e => h1 (e.trans h2.symm))]
    rw [if_neg h1] at hab
    intro hac
    exact hab (hac.trans_eq h2.symm)
  · rw [if_neg h1] at hab
    rw [if_neg h2] at hbc
    have hba : b.weight ≤ a.weight := not_lt.mp hab
    have hcb : c.weight ≤ b.weight := not_lt.mp hbc
    rw [if_neg (fun e : a.weight = c.weight => h2 (le_antisymm (hba.trans_eq e) hcb))]
    exact not_lt.mpr (hcb.trans hba)

/-- `TagExtracter` (source lines 48-52) holds the segmenter, the IDF table
and the stop-word set. -/
structure TagExtracter where
  seg : Segmenter
  idf : Idf
  stopWord : StopWord

/-- `LoadDictionary` (source lines 56-60): installs a fresh empty stop-word
set and a brand-new segmenter, then loads the dictionary file into that
segmenter.  The file input is abstracted: `loadedSeg` stands for the new
`jiebago.Segmenter` after its own `LoadDictionary(fileName)` call. -/
def TagExtracter.LoadDictionary (t : TagExtracter) (loadedSeg : Segmenter) :
    TagExtracter :=
  { t with stopWord := NewStopWord, seg := loadedSeg }

/-- The keys of an association list embedding a Go map. -/
def keysOf (m : List (Str × ℚ)) : List Str :=
  m.map Prod.fst

/-- The Go map assignment `m[k] = v`: overwrite the entry holding key `k`
when present, append a new entry otherwise. -/
def setVal (m : List (Str × ℚ)) (k : Str) (v : ℚ) :
    List (Str × ℚ) :=
  if m.any (fun p => p.1 == k) then
    m.map (fun p => if p.1 == k then (k, v) else p)
  else
    m ++ [(k, v)]

/-- The per-token filter shared by both extractors (source lines 87-93 and
166-172): trim surrounding whitespace, drop the token when its trimmed
length in runes (`utf8.RuneCountInString`) is below 2 or when it is a stop
word; otherwise the trimmed token survives. -/
def keepToken (t : TagExtracter) (w0 : Str) : Option Str :=
  let w := trimSpace w0
  if w.length < 2 then none
  else if t.stopWord.IsStopWord w then none
  else some w

/-- The frequency-map update of `ExtractTags` for one surviving token
(source lines 94-98): increment the entry when present, insert 1.0
otherwise. -/
def bump (m : List (Str × ℚ)) (w : Str) : List (Str × ℚ) :=
  match m.lookup w with
  | some f => setVal m w (f + 1)
  | none => setVal m w 1

/-- One iteration of the accumulation loop of `ExtractTags` (source lines
86-99). -/
def extractStep (t : TagExtracter) (m : List (Str × ℚ)) (w0 : Str) :
    List (Str × ℚ) :=
  match keepToken t w0 with
  | none => m
  | some w => bump m w

/-- The frequency map accumulated by `ExtractTags` over the whole token
stream `t.seg.Cut(sentence, true)`. -/
def freqMapOf (t : TagExtracter) (sentence : Str) : List (Str × ℚ) :=
  (t.seg.cut sentence true).foldl (extractStep t) []

/-- The surviving token occurrences of `ExtractTags`, in segmentation
order. -/
def survivors (t : TagExtracter) (sentence : Str) : List Str :=
  (t.seg.cut sentence true).filterMap (keepToken t)

/-- The normalization step of `ExtractTags` (source lines 100-106): every
accumulated count is divided by the sum of all counts. -/
def normFreqMap (t : TagExtracter) (sentence : Str) : List (Str × ℚ) :=
  let m := freqMapOf t sentence
  let total := (m.map Prod.snd).sum
  m.map (fun p => (p.1, p.2 / total))

/-- The weighting step of `ExtractTags` (source lines 107-116): the weight
is the IDF value times the normalized frequency, with the median of the IDF
table as fallback for absent tokens. -/
def weightSeg (t : TagExtracter) (p : Str × ℚ) : Segment :=
  match t.idf.Frequency p.1 with
  | some freq => ⟨p.1, freq * p.2⟩
  | none => ⟨p.1, t.idf.median * p.2⟩

/-- The top-K truncation shared by both extractors (source lines 118-122 and
208-212): the first `topK` elements when `topK >= 0` and the collection is
longer than `topK`, the full collection otherwise. -/
def takeTopK (topK : Int) (ws : List Segment) : List Segment :=
  if 0 ≤ topK ∧ topK < (ws.length : Int) then ws.take topK.toNat else ws

/-- `ExtractTags` (source lines 85-123). -/
def TagExtracter.ExtractTags (t : TagExtracter) (sentence : Str)
    (topK : Int) : List Segment :=
  takeTopK topK (((normFreqMap t sentence).map (weightSeg t)).insertionSort revLE)

/-- `isDigit` (source lines 126-136): true iff the token is nonempty and
every rune is numeric.  The rune class of the source is `unicode.IsNumber`;
it is modelled on the decimal digits, the only numeric runes exercised
here. -/
def isDigit (w : Str) : Bool :=
  if w = [] then false else w.all (fun r => r.isDigit)

/-- The loop state of `CNExtractTags` (source lines 160-163): the
non-deduplicated list of surviving tokens, the frequency map and the running
count of purely numeric tokens. -/
structure CNState where
  words : List Str
  freqMap : List (Str × ℚ)
  numCount : Nat

/-- One iteration of the `CNExtractTags` loop (source lines 165-187): after
the shared filter, a purely numeric token increments `numCount` and is then
skipped whenever `numCount > 0`; a surviving token is appended to `words`
and its map entry is set to 1.0 whether or not it was already present. -/
def cnStep (t : TagExtracter) (st : CNState) (w0 : Str) : CNState :=
  match keepToken t w0 with
  | none => st
  | some w =>
    if isDigit w then
      let nc := st.numCount + 1
      if 0 < nc then { st with numCount := nc }
      else ⟨st.words ++ [w], setVal st.freqMap w 1, nc⟩
    else ⟨st.words ++ [w], setVal st.freqMap w 1, st.numCount⟩

/-- The loop state of `CNExtractTags` after consuming the whole token
stream. -/
def cnState (t : TagExtracter) (sentence : Str) : CNState :=
  (t.seg.cut sentence true).foldl (cnStep t) ⟨[], [], 0⟩

/-- The tokens that survive the `CNExtractTags` loop: the shared filter plus
the suppression of purely numeric tokens. -/
def cnKeep (t : TagExtracter) (w0 : Str) : Option Str :=
  match keepToken t w0 with
  | none => none
  | some w => if isDigit w then none else some w

/-- The surviving, non-digit-suppressed token occurrences of
`CNExtractTags`, in segmentation order. -/
def cnSurvivors (t : TagExtracter) (sentence : Str) : List Str :=
  (t.seg.cut sentence true).filterMap (cnKeep t)

/-- The weighting step of `CNExtractTags` (source lines 199-206): the weight
is the IDF value times the accumulated value; a token absent from the IDF
table is dropped. -/
def cnWeightSeg (t : TagExtracter) (p : Str × ℚ) : Option Segment :=
  match t.idf.Frequency p.1 with
  | some freq => some ⟨p.1, freq * p.2⟩
  | none => none

/-- `CNExtractTags` (source lines 159-214). -/
def TagExtracter.CNExtractTags (t : TagExtracter) (sentence : Str)
    (topK : Int) : List Segment × List Str :=
  let st := cnState t sentence
  (takeTopK topK ((st.freqMap.filterMap (cnWeightSeg t)).insertionSort revLE),
   st.words)

/-- A concrete segmenter used to evaluate the development: it returns two
two-letter tokens for every sentence. -/
def exSeg : Segmenter := ⟨fun _ _ => [str "aa", str "bb"]⟩

/-- A concrete extracter whose IDF table gives both tokens the same value,
producing an equal-weight tie in the output. -/
def exT : TagExtracter := ⟨exSeg, ⟨[(str "aa", 1), (str "bb", 1)], 0⟩, ⟨[]⟩⟩

/-- A concrete segmenter exercising the digit suppression and the duplicate
handling of the CN variant. -/
def cnSeg : Segmenter := ⟨fun _ _ => [str "aa", str "12", str "aa", str "cc"]⟩

/-- A concrete extracter whose IDF table contains only one of the surviving
tokens. -/
def cnT : TagExtracter := ⟨cnSeg, ⟨[(str "aa", 2)], 7⟩, ⟨[]⟩⟩

/-- A concrete segmenter producing only tokens that the filter discards. -/
def stopSeg : Segmenter := ⟨fun _ _ => [str "a", str " the ", str ""]⟩

/-- A concrete extracter with the stop word matching `stopSeg`. -/
def stopT : TagExtracter := ⟨stopSeg, ⟨[], 0⟩, ⟨[str "the"]⟩⟩

/-! ### Association-list lemmas -/

theorem keysOf_setVal (m : List (Str × ℚ)) (k : Str) (v : ℚ) :
    keysOf (setVal m k v)
      = if m.any (fun p => p.1 == k) then keysOf m else keysOf m ++ [k] := by
  unfold setVal keysOf
  by_cases h : m.any (fun p => p.1 == k)
  · rw [if_pos h, if_pos h, List.map_map]
    refine List.map_congr_left ?_
    intro p _
    simp only [Function.comp_apply]
    by_cases hk : p.1 == k
    · rw [if_pos hk]
      exact (eq_of_beq hk).symm
    · rw [if_neg (by simpa using hk)]
  · rw [if_neg h, if_neg h, List.map_append]
    rfl

theorem mem_keysOf_setVal {m : List (Str × ℚ)} {k : Str} {v : ℚ} {x : Str} :
    x ∈ keysOf (setVal m k v) ↔ x ∈ keysOf m ∨ x = k := by
  rw [keysOf_setVal]
  by_cases h : m.any (fun p => p.1 == k)
  · rw [if_pos h]
    constructor
    · exact Or.inl
    · rintro (hx | rfl)
      · exact hx
      · rcases List.any_eq_true.mp h with ⟨p, hp, hpk⟩
        exact (eq_of_beq hpk) ▸ List.mem_map_of_mem Prod.fst hp
  · rw [if_neg h]
    simp

theorem nodup_keysOf_setVal {m : List (Str × ℚ)} {k : Str} {v : ℚ}
    (h : (keysOf m).Nodup) : (keysOf (setVal m k v)).Nodup := by
  rw [keysOf_setVal]
  by_cases hc : m.any (fun p => p.1 == k)
  · rwa [if_pos hc]
  · rw [if_neg hc]
    have hk : k ∉ keysOf m := by
      intro hmem
      rcases List.mem_map.mp hmem with ⟨p, hp, hpk⟩
      exact hc (List.any_eq_true.mpr ⟨p, hp, beq_iff_eq.mpr hpk⟩)
    simpa [List.nodup_append] using ⟨h, hk⟩

theorem mem_setVal {m : List (Str × ℚ)} {k : Str} {v : ℚ} {p : Str × ℚ}
    (hp : p ∈ setVal m k v) : p ∈ m ∨ p = (k, v) := by
  unfold setVal at hp
  by_cases h : m.any (fun q => q.1 == k)
  · rw [if_pos h] at hp
    rcases List.mem_map.mp hp with ⟨q, hq, hqe⟩
    by_cases hk : q.1 == k
    · rw [if_pos hk] at hqe
      exact Or.inr hqe.symm
    · rw [if_neg (by simpa using hk)] at hqe
      exact Or.inl (hqe ▸ hq)
  · rw [if_neg h] at hp
    rcases List.mem_append.mp hp with h1 | h1
    · exact Or.inl h1
    · exact Or.inr (by simpa using h1)

theorem lookup_mem : ∀ {m : List (Str × ℚ)} {k : Str} {v : ℚ},
    m.lookup k = some v → (k, v) ∈ m := by
  intro m
  induction m with
  | nil => intro k v h; simp [List.lookup] at h
  | cons q m ih =>
    intro k v h
    obtain ⟨k0, v0⟩ := q
    simp only [List.lookup] at h
    cases hbe : k == k0
    · rw [hbe] at h
      exact List.mem_cons_of_mem _ (ih (by simpa using h))
    · rw [hbe] at h
      obtain rfl : v0 = v := by simpa using h
      exact (eq_of_beq hbe) ▸ List.mem_cons_self _ _

theorem lookup_eq_of_mem : ∀ {m : List (Str × ℚ)}, (keysOf m).Nodup →
    ∀ {k : Str} {v : ℚ}, (k, v) ∈ m → m.lookup k = some v := by
  intro m
  induction m with
  | nil => intro _ k v h; cases h
  | cons q m ih =>
    intro hnd k v h
    obtain ⟨k0, v0⟩ := q
    rcases List.mem_cons.mp h with he | hm
    · obtain ⟨rfl, rfl⟩ := Prod.mk.injEq .. ▸ he
      simp [List.lookup]
    · have hnd2 : k0 ∉ keysOf m ∧ (keysOf m).Nodup := by
        simpa [keysOf] using List.nodup_cons.mp hnd
      have hk : k ≠ k0 := by
        rintro rfl
        exact hnd2.1 (List.mem_map_of_mem Prod.fst hm)
      have hbe : (k == k0) = false := by simpa using hk
      simp only [List.lookup, hbe]
      exact ih hnd2.2 hm

theorem setVal_preserves {P : Str × ℚ → Prop} {m : List (Str × ℚ)} {k : Str}
    {v : ℚ} (hm : ∀ p ∈ m, P p) (hkv : P (k, v)) :
    ∀ p ∈ setVal m k v, P p :=
  fun p hp => (mem_setVal hp).elim (hm p) (fun e => e ▸ hkv)

/-! ### The accumulation loop of ExtractTags -/

theorem foldl_extractStep_eq (t : TagExtracter) :
    ∀ (l : List Str) (m : List (Str × ℚ)),
      l.foldl (extractStep t) m = (l.filterMap (keepToken t)).foldl bump m := by
  intro l
  induction l with
  | nil => intro m; rfl
  | cons a l ih =>
    intro m
    simp only [List.foldl_cons, List.filterMap_cons, extractStep]
    cases keepToken t a
    · exact ih m
    · simp only [List.foldl_cons]
      exact ih _

theorem freqMapOf_eq_foldl (t : TagExtracter) (s : Str) :
    freqMapOf t s = (survivors t s).foldl bump [] :=
  foldl_extractStep_eq t (t.seg.cut s true) []

theorem mem_keysOf_bump {m : List (Str × ℚ)} {w x : Str} :
    x ∈ keysOf (bump m w) ↔ x ∈ keysOf m ∨ x = w := by
  unfold bump
  cases m.lookup w
  · exact mem_keysOf_setVal
  · exact mem_keysOf_setVal

theorem nodup_keysOf_bump {m : List (Str × ℚ)} {w : Str}
    (h : (keysOf m).Nodup) : (keysOf (bump m w)).Nodup := by
  unfold bump
  cases m.lookup w
  · exact nodup_keysOf_setVal h
  · exact nodup_keysOf_setVal h

theorem bump_pos {m : List (Str × ℚ)} {w : Str}
    (hm : ∀ p ∈ m, (1:ℚ) ≤ p.2) : ∀ p ∈ bump m w, (1:ℚ) ≤ p.2 := by
  unfold bump
  cases hl : m.lookup w with
  | none => exact setVal_preserves hm (by norm_num)
  | some f =>
    have hf : (1:ℚ) ≤ f := hm _ (lookup_mem hl)
    have h1 : (1:ℚ) ≤ f + 1 := by linarith
    exact setVal_preserves hm (by simpa using h1)

theorem mem_keysOf_foldl_bump :
    ∀ (l : List Str) (m : List (Str × ℚ)) (x : Str),
      x ∈ keysOf (l.foldl bump m) ↔ x ∈ keysOf m ∨ x ∈ l := by
  intro l
  induction l with
  | nil => intro m x; simp
  | cons w l ih =>
    intro m x
    rw [List.foldl_cons, ih, mem_keysOf_bump, List.mem_cons]
    tauto

theorem nodup_keysOf_foldl_bump :
    ∀ (l : List Str) (m : List (Str × ℚ)),
      (keysOf m).Nodup → (keysOf (l.foldl bump m)).Nodup := by
  intro l
  induction l with
  | nil => intro m hm; exact hm
  | cons w l ih =>
    intro m hm
    exact ih _ (nodup_keysOf_bump hm)

theorem pos_foldl_bump :
    ∀ (l : List Str) (m : List (Str × ℚ)),
      (∀ p ∈ m, (1:ℚ) ≤ p.2) → ∀ p ∈ l.foldl bump m, (1:ℚ) ≤ p.2 := by
  intro l
  induction l with
  | nil => intro m hm; exact hm
  | cons w l ih =>
    intro m hm
    exact ih _ (bump_pos hm)

theorem mem_keysOf_freqMapOf {t : TagExtracter} {s : Str} {x : Str} :
    x ∈ keysOf (freqMapOf t s) ↔ x ∈ survivors t s := by
  rw [freqMapOf_eq_foldl, mem_keysOf_foldl_bump]
  simp [keysOf]

theorem nodup_keysOf_freqMapOf (t : TagExtracter) (s : Str) :
    (keysOf (freqMapOf t s)).Nodup := by
  rw [freqMapOf_eq_foldl]
  exact nodup_keysOf_foldl_bump _ _ (by simp [keysOf])

theorem pos_freqMapOf {t : TagExtracter} {s : Str} :
    ∀ p ∈ freqMapOf t s, (1:ℚ) ≤ p.2 := by
  rw [freqMapOf_eq_foldl]
  exact pos_foldl_bump _ _ (by simp)

/-! ### The token filter -/

theorem keepToken_spec {t : TagExtracter} {w0 w : Str}
    (h : keepToken t w0 = some w) :
    w = trimSpace w0 ∧ 2 ≤ w.length ∧ t.stopWord.IsStopWord w = false := by
  unfold keepToken at h
  by_cases h1 : (trimSpace w0).length < 2
  · simp [h1] at h
  · by_cases h2 : t.stopWord.IsStopWord (trimSpace w0)
    · simp [h1, h2] at h
    · simp [h1, h2] at h
      subst h
      exact ⟨rfl, Nat.le_of_not_lt h1, by simpa using h2⟩

theorem mem_survivors_spec {t : TagExtracter} {s : Str} {w : Str}
    (h : w ∈ survivors t s) :
    2 ≤ w.length ∧ t.stopWord.IsStopWord w = false := by
  rcases List.mem_filterMap.mp h with ⟨w0, _, hk⟩
  exact (keepToken_spec hk).2

theorem cnKeep_spec {t : TagExtracter} {w0 w : Str}
    (h : cnKeep t w0 = some w) :
    keepToken t w0 = some w ∧ isDigit w = false := by
  unfold cnKeep at h
  cases hk : keepToken t w0 with
  | none => rw [hk] at h; cases h
  | some w1 =>
    rw [hk] at h
    by_cases hd : isDigit w1
    · simp [hd] at h
    · simp [hd] at h
      subst h
      exact ⟨rfl, by simpa using hd⟩

theorem mem_cnSurvivors_spec {t : TagExtracter} {s : Str} {w : Str}
    (h : w ∈ cnSurvivors t s) :
    2 ≤ w.length ∧ t.stopWord.IsStopWord w = false ∧ isDigit w = false := by
  rcases List.mem_filterMap.mp h with ⟨w0, _, hk⟩
  rcases cnKeep_spec hk with ⟨hkeep, hd⟩
  rcases keepToken_spec hkeep with ⟨_, hlen, hstop⟩
  exact ⟨hlen, hstop, hd⟩

/-! ### The accumulation loop of CNExtractTags -/

theorem cnStep_none {t : TagExtracter} {st : CNState} {a : Str}
    (hk : keepToken t a = none) : cnStep t st a = st := by
  unfold cnStep
  rw [hk]

theorem cnStep_digit {t : TagExtracter} {st : CNState} {a w : Str}
    (hk : keepToken t a = some w) (hd : isDigit w = true) :
    cnStep t st a = { st with numCount := st.numCount + 1 } := by
  unfold cnStep
  rw [hk]
  simp [hd]

theorem cnStep_word {t : TagExtracter} {st : CNState} {a w : Str}
    (hk : keepToken t a = some w) (hd : isDigit w = false) :
    cnStep t st a = ⟨st.words ++ [w], setVal st.freqMap w 1, st.numCount⟩ := by
  unfold cnStep
  rw [hk]
  simp [hd]

theorem cnKeep_none {t : TagExtracter} {a : Str}
    (hk : keepToken t a = none) : cnKeep t a = none := by
  unfold cnKeep
  rw [hk]

theorem cnKeep_digit {t : TagExtracter} {a w : Str}
    (hk : keepToken t a = some w) (hd : isDigit w = true) :
    cnKeep t a = none := by
  unfold cnKeep
  rw [hk]
  simp [hd]

theorem cnKeep_word {t : TagExtracter} {a w : Str}
    (hk : keepToken t a = some w) (hd : isDigit w = false) :
    cnKeep t a = some w := by
  unfold cnKeep
  rw [hk]
  simp [hd]

theorem foldl_cnStep_eq (t : TagExtracter) :
    ∀ (l : List Str) (st : CNState),
      (l.foldl (cnStep t) st).words = st.words ++ l.filterMap (cnKeep t) ∧
      (l.foldl (cnStep t) st).freqMap
        = (l.filterMap (cnKeep t)).foldl (fun m w => setVal m w 1) st.freqMap := by
  intro l
  induction l with
  | nil => intro st; simp
  | cons a l ih =>
    intro st
    rw [List.foldl_cons, List.filterMap_cons]
    cases hk : keepToken t a with
    | none =>
      rw [cnStep_none hk, cnKeep_none hk]
      simpa using ih st
    | some w =>
      cases hd : isDigit w with
      | false =>
        rw [cnStep_word hk hd, cnKeep_word hk hd]
        rcases ih ⟨st.words ++ [w], setVal st.freqMap w 1, st.numCount⟩ with ⟨h1, h2⟩
        refine ⟨?_, ?_⟩
        · simpa using h1
        · simpa using h2
      | true =>
        rw [cnStep_digit hk hd, cnKeep_digit hk hd]
        simpa using ih { st with numCount := st.numCount + 1 }

theorem cn_freqMap_eq (t : TagExtracter) (s : Str) :
    (cnState t s).freqMap
      = (cnSurvivors t s).foldl (fun m w => setVal m w 1) [] :=
  (foldl_cnStep_eq t (t.seg.cut s true) ⟨[], [], 0⟩).2

theorem cn_words_eq (t : TagExtracter) (s : Str) :
    (cnState t s).words = cnSurvivors t s := by
  simpa using (foldl_cnStep_eq t (t.seg.cut s true) ⟨[], [], 0⟩).1

theorem mem_keysOf_foldl_set1 :
    ∀ (l : List Str) (m : List (Str × ℚ)) (x : Str),
      x ∈ keysOf (l.foldl (fun m w => setVal m w 1) m) ↔ x ∈ keysOf m ∨ x ∈ l := by
  intro l
  induction l with
  | nil => intro m x; simp
  | cons w l ih =>
    intro m x
    rw [List.foldl_cons, ih, mem_keysOf_setVal, List.mem_cons]
    tauto

theorem nodup_keysOf_foldl_set1 :
    ∀ (l : List Str) (m : List (Str × ℚ)),
      (keysOf m).Nodup → (keysOf (l.foldl (fun m w => setVal m w 1) m)).Nodup := by
  intro l
  induction l with
  | nil => intro m hm; exact hm
  | cons w l ih =>
    intro m hm
    exact ih _ (nodup_keysOf_setVal hm)

theorem entries_foldl_set1 {P : Str × ℚ → Prop} :
    ∀ (l : List Str) (m : List (Str × ℚ)),
      (∀ p ∈ m, P p) → (∀ w ∈ l, P (w, 1)) →
      ∀ p ∈ l.foldl (fun m w => setVal m w 1) m, P p := by
  intro l
  induction l with
  | nil => intro m hm _; exact hm
  | cons w l ih =>
    intro m hm hl
    exact ih _ (setVal_preserves hm (hl w (List.mem_cons_self _ _)))
      (fun x hx => hl x (List.mem_cons_of_mem _ hx))

theorem mem_keysOf_cnFreqMap {t : TagExtracter} {s : Str} {x : Str} :
    x ∈ keysOf (cnState t s).freqMap ↔ x ∈ cnSurvivors t s := by
  rw [cn_freqMap_eq, mem_keysOf_foldl_set1]
  simp [keysOf]

theorem nodup_keysOf_cnFreqMap (t : TagExtracter) (s : Str) :
    (keysOf (cnState t s).freqMap).Nodup := by
  rw [cn_freqMap_eq]
  exact nodup_keysOf_foldl_set1 _ _ (by simp [keysOf])

theorem cnFreqMap_entries {t : TagExtracter} {s : Str} :
    ∀ p ∈ (cnState t s).freqMap, p.1 ∈ cnSurvivors t s ∧ p.2 = 1 := by
  rw [cn_freqMap_eq]
  exact entries_foldl_set1 _ _ (by simp) (fun w hw => ⟨hw, rfl⟩)

/-! ### Sorting and truncation -/

theorem takeTopK_sublist (topK : Int) (ws : List Segment) :
    (takeTopK topK ws).Sublist ws := by
  unfold takeTopK
  split
  · exact List.take_sublist _ _
  · exact List.Sublist.refl _

theorem mem_takeTopK {topK : Int} {ws : List Segment} {s : Segment}
    (h : s ∈ takeTopK topK ws) : s ∈ ws :=
  (takeTopK_sublist topK ws).subset h

theorem sorted_pairwise_takeTopK (topK : Int) (ws : List Segment) :
    (takeTopK topK (ws.insertionSort revLE)).Pairwise revLE :=
  (List.sorted_insertionSort revLE ws).sublist
    (takeTopK_sublist topK (ws.insertionSort revLE))

theorem weightSeg_text (t : TagExtracter) (p : Str × ℚ) :
    (weightSeg t p).text = p.1 := by
  unfold weightSeg
  cases t.idf.Frequency p.1 <;> rfl

theorem weightSeg_weight (t : TagExtracter) (p : Str × ℚ) :
    (weightSeg t p).weight = ((t.idf.Frequency p.1).getD t.idf.median) * p.2 := by
  unfold weightSeg
  cases t.idf.Frequency p.1 <;> rfl

theorem keysOf_normFreqMap (t : TagExtracter) (s : Str) :
    keysOf (normFreqMap t s) = keysOf (freqMapOf t s) := by
  unfold normFreqMap keysOf
  rw [List.map_map]
  rfl

theorem mem_ExtractTags {t : TagExtracter} {s : Str} {topK : Int}
    {seg : Segment} (h : seg ∈ t.ExtractTags s topK) :
    ∃ p ∈ normFreqMap t s, seg = weightSeg t p := by
  unfold TagExtracter.ExtractTags at h
  have h1 := mem_takeTopK h
  rw [List.mem_insertionSort] at h1
  rcases List.mem_map.mp h1 with ⟨p, hp, he⟩
  exact ⟨p, hp, he.symm⟩

theorem mem_CNExtractTags {t : TagExtracter} {s : Str} {topK : Int}
    {seg : Segment} (h : seg ∈ (t.CNExtractTags s topK).1) :
    ∃ p ∈ (cnState t s).freqMap, cnWeightSeg t p = some seg := by
  unfold TagExtracter.CNExtractTags at h
  have h1 := mem_takeTopK h
  rw [List.mem_insertionSort] at h1
  exact List.mem_filterMap.mp h1

theorem cnWeightSeg_eq {t : TagExtracter} {p : Str × ℚ} {seg : Segment}
    (hw : cnWeightSeg t p = some seg) :
    ∃ f, t.idf.Frequency p.1 = some f ∧ seg = ⟨p.1, f * p.2⟩ := by
  unfold cnWeightSeg at hw
  cases hf : t.idf.Frequency p.1 with
  | none => rw [hf] at hw; cases hw
  | some f =>
    rw [hf] at hw
    exact ⟨f, rfl, by simpa using hw.symm⟩

theorem pairwise_weight_text {l : List Segment} (h : l.Pairwise revLE) :
    l.Chain' (fun a b => b.weight ≤ a.weight ∧ (a.weight = b.weight → b.text ≤ a.text)) := by
  refine List.Pairwise.chain' (h.imp ?_)
  intro a b hab
  unfold revLE Segments.Less at hab
  by_cases hw : a.weight = b.weight
  · rw [if_pos hw] at hab
    exact ⟨le_of_eq hw.symm, fun _ => not_lt.mp hab⟩
  · rw [if_neg hw] at hab
    exact ⟨not_lt.mp hab, fun e => absurd e hw⟩

theorem takeTopK_length (topK : Int) (ws : List Segment) (h0 : 0 ≤ topK) :
    ((takeTopK topK ws).length : Int) ≤ max topK 0 := by
  unfold takeTopK
  split
  · rw [List.length_take]
    omega
  · rename_i hc
    push_neg at hc
    have := hc h0
    omega

theorem takeTopK_neg {topK : Int} (ws : List Segment) (h : topK < 0) :
    takeTopK topK ws = ws := by
  unfold takeTopK
  rw [if_neg]
  rintro ⟨h0, -⟩
  omega

theorem extract_texts_eq (t : TagExtracter) (s : Str) :
    ((normFreqMap t s).map (weightSeg t)).map Segment.text
      = keysOf (freqMapOf t s) := by
  rw [List.map_map, ← keysOf_normFreqMap]
  unfold keysOf
  exact List.map_congr_left (fun p _ => weightSeg_text t p)

theorem cn_texts_sublist (t : TagExtracter) :
    ∀ m : List (Str × ℚ),
      ((m.filterMap (cnWeightSeg t)).map Segment.text).Sublist (keysOf m) := by
  intro m
  induction m with
  | nil => simp [keysOf]
  | cons p m ih =>
    rw [List.filterMap_cons]
    cases hw : cnWeightSeg t p with
    | none => exact ih.trans (List.sublist_cons_self _ _)
    | some seg =>
      rcases cnWeightSeg_eq hw with ⟨f, hf, rfl⟩
      exact ih.cons₂ p.1

theorem sum_map_div (m : List (Str × ℚ)) (c : ℚ) :
    (m.map (fun p => p.2 / c)).sum = (m.map Prod.snd).sum / c := by
  induction m with
  | nil => simp
  | cons p m ih => simp [ih, add_div]

theorem total_pos {t : TagExtracter} {s : Str} (h : survivors t s ≠ []) :
    0 < ((freqMapOf t s).map Prod.snd).sum := by
  obtain ⟨w, hw⟩ : ∃ w, w ∈ survivors t s := by
    cases hs : survivors t s with
    | nil => exact absurd hs h
    | cons a l => exact ⟨a, hs ▸ List.mem_cons_self a l⟩
  have hk : w ∈ keysOf (freqMapOf t s) := mem_keysOf_freqMapOf.mpr hw
  cases hm : freqMapOf t s with
  | nil => rw [hm] at hk; simp [keysOf] at hk
  | cons q rest =>
    have hpos := fun p hp => pos_freqMapOf (t := t) (s := s) p (hm ▸ hp)
    have h1 : (1:ℚ) ≤ q.2 := hpos q (List.mem_cons_self _ _)
    have h2 : 0 ≤ (rest.map Prod.snd).sum := by
      refine List.sum_nonneg ?_
      intro x hx
      rcases List.mem_map.mp hx with ⟨p, hp, rfl⟩
      have := hpos p (List.mem_cons_of_mem _ hp)
      linarith
    simp only [List.map_cons, List.sum_cons]
    linarith

theorem norm_sum_one {t : TagExtracter} {s : Str} (h : survivors t s ≠ []) :
    ((normFreqMap t s).map Prod.snd).sum = 1 := by
  have ht := total_pos h
  unfold normFreqMap
  rw [List.map_map]
  have he : (Prod.snd ∘ fun p : Str × ℚ =>
      (p.1, p.2 / ((freqMapOf t s).map Prod.snd).sum))
      = fun p : Str × ℚ => p.2 / ((freqMapOf t s).map Prod.snd).sum := rfl
  rw [he, sum_map_div]
  exact div_self (ne_of_gt ht)

theorem extract_weight_formula {t : TagExtracter} {s : Str} {topK : Int}
    {seg : Segment} (h : seg ∈ t.ExtractTags s topK) :
    ∃ v, (normFreqMap t s).lookup seg.text = some v ∧
      seg.weight = ((t.idf.Frequency seg.text).getD t.idf.median) * v := by
  rcases mem_ExtractTags h with ⟨⟨k, v⟩, hp, rfl⟩
  refine ⟨v, ?_, ?_⟩
  · rw [weightSeg_text]
    exact lookup_eq_of_mem
      (by rw [keysOf_normFreqMap]; exact nodup_keysOf_freqMapOf t s) hp
  · rw [weightSeg_text, weightSeg_weight]

/-! ### Concrete evaluations -/

theorem exT_freq : freqMapOf exT (str "x") = [(str "aa", 1), (str "bb", 1)] := by
  decide

theorem exT_tags : exT.ExtractTags (str "x") (-1)
    = [⟨str "bb", (1:ℚ)/2⟩, ⟨str "aa", (1:ℚ)/2⟩] := by
  have ha : List.lookup (str "aa") [(str "aa", (1:ℚ)), (str "bb", 1)] = some 1 := by
    decide
  have hb : List.lookup (str "bb") [(str "aa", (1:ℚ)), (str "bb", 1)] = some 1 := by
    decide
  have hab : str "aa" < str "bb" := by decide
  simp only [TagExtracter.ExtractTags, normFreqMap, exT_freq]
  norm_num [weightSeg, Idf.Frequency, exT, exSeg, ha, hb, hab,
    List.insertionSort, List.orderedInsert, revLE, Segments.Less, takeTopK]

theorem cn_freq_eval : (cnState cnT (str "x")).freqMap
    = [(str "aa", 1), (str "cc", 1)] := by
  decide

theorem cn_words_eval : (cnState cnT (str "x")).words
    = [str "aa", str "aa", str "cc"] := by
  decide

theorem cn_tags_eval : cnT.CNExtractTags (str "x") 5
    = ([⟨str "aa", 2⟩], [str "aa", str "aa", str "cc"]) := by
  simp only [TagExtracter.CNExtractTags, cn_freq_eval, cn_words_eval]
  norm_num [cnWeightSeg, Idf.Frequency, cnT,
    List.insertionSort, List.orderedInsert, takeTopK]

/-! ### Claims -/

/-- C1, amended: for every sentence and topK, the Segment Collections
returned by ExtractTags and by CNExtractTags are sorted so that for any
adjacent pair the weight is non-increasing, and any two adjacent segments
of equal weight appear in descending (not ascending) lexicographic order of
their text. -/
theorem c1_extract_sorted (t : TagExtracter) (s : Str) (topK : Int) :
    (t.ExtractTags s topK).Chain' (fun a b =>
        b.weight ≤ a.weight ∧ (a.weight = b.weight → b.text ≤ a.text)) ∧
    (t.CNExtractTags s topK).1.Chain' (fun a b =>
        b.weight ≤ a.weight ∧ (a.weight = b.weight → b.text ≤ a.text)) := by
  constructor
  · exact pairwise_weight_text
      (sorted_pairwise_takeTopK topK ((normFreqMap t s).map (weightSeg t)))
  · exact pairwise_weight_text
      (sorted_pairwise_takeTopK topK
        ((cnState t s).freqMap.filterMap (cnWeightSeg t)))

/-- C1, counterexample: on an input producing two segments of equal weight,
ExtractTags returns them in descending text order, refuting the claimed
ascending lexicographic tie order. -/
theorem c1_ascending_ties_cex :
    ¬ (exT.ExtractTags (str "x") (-1)).Chain' (fun a b =>
        b.weight ≤ a.weight ∧ (a.weight = b.weight → a.text ≤ b.text)) := by
  rw [exT_tags]
  intro h
  rcases List.chain'_cons.mp h with ⟨⟨-, hts⟩, -⟩
  exact absurd (hts rfl) (by decide)

/-- C2: for every sentence, if topK is non-negative the length of the
collection returned by ExtractTags is at most max(topK, 0); if topK is
negative the full collection is returned, holding exactly one segment per
distinct surviving token. -/
theorem c2_extract_topK_length (t : TagExtracter) (s : Str) (topK : Int) :
    (0 ≤ topK → ((t.ExtractTags s topK).length : Int) ≤ max topK 0) ∧
    (topK < 0 →
      ((t.ExtractTags s topK).map Segment.text).Nodup ∧
      ∀ x, x ∈ (t.ExtractTags s topK).map Segment.text ↔ x ∈ survivors t s) := by
  constructor
  · intro h0
    exact takeTopK_length topK _ h0
  · intro hneg
    have he : t.ExtractTags s topK
        = ((normFreqMap t s).map (weightSeg t)).insertionSort revLE :=
      takeTopK_neg _ hneg
    have hperm :
        ((((normFreqMap t s).map (weightSeg t)).insertionSort revLE).map
          Segment.text).Perm
          (((normFreqMap t s).map (weightSeg t)).map Segment.text) :=
      (List.perm_insertionSort revLE _).map Segment.text
    have hkeys := extract_texts_eq t s
    constructor
    · rw [he]
      refine hperm.nodup_iff.mpr ?_
      rw [hkeys]
      exact nodup_keysOf_freqMapOf t s
    · intro x
      rw [he, hperm.mem_iff, hkeys, mem_keysOf_freqMapOf]

theorem c2_witness :
    ((exT.ExtractTags (str "x") 1).length : Int) ≤ max 1 0 ∧
    (((exT.ExtractTags (str "x") (-1)).map Segment.text).Nodup ∧
      ∀ x, x ∈ (exT.ExtractTags (str "x") (-1)).map Segment.text
        ↔ x ∈ survivors exT (str "x")) :=
  ⟨(c2_extract_topK_length exT (str "x") 1).1 (by decide),
   (c2_extract_topK_length exT (str "x") (-1)).2 (by decide)⟩

/-- C3: in CNExtractTags no purely numeric token is ever accumulated into
the frequency map: the counter becomes positive already at the first
numeric token, so that token and every later one is skipped. -/
theorem c3_cn_digit_skipped (t : TagExtracter) (s : Str) :
    ∀ p ∈ (cnState t s).freqMap, isDigit p.1 = false :=
  fun p hp => (mem_cnSurvivors_spec (cnFreqMap_entries p hp).1).2.2

theorem c3_witness : isDigit (str "aa", (1:ℚ)).1 = false :=
  c3_cn_digit_skipped cnT (str "x") (str "aa", 1)
    (by rw [cn_freq_eval]; exact List.mem_cons_self _ _)

/-- C4: every segment returned by CNExtractTags has a text that is a key of
the IDF table; tokens absent from the table are dropped rather than
weighted with the median fallback. -/
theorem c4_cn_tags_in_idf (t : TagExtracter) (s : Str) (topK : Int) :
    ∀ seg ∈ (t.CNExtractTags s topK).1,
      (t.idf.Frequency seg.text).isSome = true := by
  intro seg h
  rcases mem_CNExtractTags h with ⟨p, hp, hw⟩
  rcases cnWeightSeg_eq hw with ⟨f, hf, rfl⟩
  simp [hf]

theorem c4_witness :
    (cnT.idf.Frequency (Segment.mk (str "aa") 2).text).isSome = true :=
  c4_cn_tags_in_idf cnT (str "x") 5 ⟨str "aa", 2⟩ (by simp [cn_tags_eval])

/-- C5: in CNExtractTags the accumulated value of every distinct surviving
token is fixed at 1.0 however often the token occurs, so every returned
weight equals the IDF value of the token times 1.0. -/
theorem c5_cn_weight (t : TagExtracter) (s : Str) (topK : Int) :
    ∀ seg ∈ (t.CNExtractTags s topK).1,
      ∃ f, t.idf.Frequency seg.text = some f ∧ seg.weight = f * 1 := by
  intro seg h
  rcases mem_CNExtractTags h with ⟨p, hp, hw⟩
  have hv : p.2 = 1 := (cnFreqMap_entries p hp).2
  rcases cnWeightSeg_eq hw with ⟨f, hf, rfl⟩
  exact ⟨f, by simpa using hf, by simp [hv]⟩

theorem c5_witness :
    ∃ f, cnT.idf.Frequency (Segment.mk (str "aa") 2).text = some f ∧
      (Segment.mk (str "aa") 2).weight = f * 1 :=
  c5_cn_weight cnT (str "x") 5 ⟨str "aa", 2⟩ (by simp [cn_tags_eval])

/-- C6: with at least one surviving token, the normalized frequencies of
ExtractTags sum to exactly 1, and every returned weight is the IDF value of
the token (the median of the table when absent) times its normalized
frequency. -/
theorem c6_extract_normalized (t : TagExtracter) (s : Str) (topK : Int)
    (h : survivors t s ≠ []) :
    ((normFreqMap t s).map Prod.snd).sum = 1 ∧
    ∀ seg ∈ t.ExtractTags s topK, ∃ v,
      (normFreqMap t s).lookup seg.text = some v ∧
      seg.weight = ((t.idf.Frequency seg.text).getD t.idf.median) * v :=
  ⟨norm_sum_one h, fun _ hs => extract_weight_formula hs⟩

theorem c6_witness :
    survivors exT (str "x") ≠ [] ∧
    (((normFreqMap exT (str "x")).map Prod.snd).sum = 1 ∧
      ∀ seg ∈ exT.ExtractTags (str "x") 2, ∃ v,
        (normFreqMap exT (str "x")).lookup seg.text = some v ∧
        seg.weight = ((exT.idf.Frequency seg.text).getD exT.idf.median) * v) :=
  ⟨by decide, c6_extract_normalized exT (str "x") 2 (by decide)⟩

/-- C7: when every token of the sentence is filtered out, ExtractTags
returns the empty collection; the division by the total frequency is never
performed, so no undefined weight is produced. -/
theorem c7_extract_empty (t : TagExtracter) (s : Str) (topK : Int)
    (h : survivors t s = []) :
    t.ExtractTags s topK = [] := by
  have hm : freqMapOf t s = [] := by
    rw [freqMapOf_eq_foldl, h]
    rfl
  simp only [TagExtracter.ExtractTags, normFreqMap, hm]
  simp [takeTopK, List.insertionSort]

theorem c7_witness :
    survivors stopT (str "x") = [] ∧ stopT.ExtractTags (str "x") 5 = [] :=
  ⟨by decide, c7_extract_empty stopT (str "x") 5 (by decide)⟩

/-- C8: no token of trimmed length below two characters and no stop word
ever appears in the output of either extractor. -/
theorem c8_no_short_or_stop (t : TagExtracter) (s : Str) (topK : Int) :
    (∀ seg ∈ t.ExtractTags s topK,
        2 ≤ seg.text.length ∧ t.stopWord.IsStopWord seg.text = false) ∧
    (∀ seg ∈ (t.CNExtractTags s topK).1,
        2 ≤ seg.text.length ∧ t.stopWord.IsStopWord seg.text = false) ∧
    (∀ w ∈ (t.CNExtractTags s topK).2,
        2 ≤ w.length ∧ t.stopWord.IsStopWord w = false) := by
  refine ⟨?_, ?_, ?_⟩
  · intro seg h
    rcases mem_ExtractTags h with ⟨p, hp, rfl⟩
    rw [weightSeg_text]
    have hx : p.1 ∈ keysOf (normFreqMap t s) := List.mem_map_of_mem Prod.fst hp
    rw [keysOf_normFreqMap] at hx
    exact mem_survivors_spec (mem_keysOf_freqMapOf.mp hx)
  · intro seg h
    rcases mem_CNExtractTags h with ⟨p, hp, hw⟩
    rcases cnWeightSeg_eq hw with ⟨f, hf, rfl⟩
    rcases mem_cnSurvivors_spec (cnFreqMap_entries p hp).1 with ⟨h1, h2, -⟩
    exact ⟨h1, h2⟩
  · intro w h
    have he : (t.CNExtractTags s topK).2 = cnSurvivors t s := cn_words_eq t s
    rw [he] at h
    rcases mem_cnSurvivors_spec h with ⟨h1, h2, -⟩
    exact ⟨h1, h2⟩

theorem c8_witness :
    2 ≤ (Segment.mk (str "bb") ((1:ℚ)/2)).text.length ∧
    exT.stopWord.IsStopWord (Segment.mk (str "bb") ((1:ℚ)/2)).text = false :=
  (c8_no_short_or_stop exT (str "x") (-1)).1 ⟨str "bb", 1/2⟩ (by simp [exT_tags])

/-- C9: the token sequence returned by CNExtractTags is exactly the list of
surviving non-digit token occurrences in first-seen order, duplicates
included, while the texts of the returned Segment Collection are pairwise
distinct. -/
theorem c9_cn_words_dup_tags_nodup (t : TagExtracter) (s : Str) (topK : Int) :
    (t.CNExtractTags s topK).2 = cnSurvivors t s ∧
    ((t.CNExtractTags s topK).1.map Segment.text).Nodup := by
  constructor
  · exact cn_words_eq t s
  · have hsub := cn_texts_sublist t (cnState t s).freqMap
    have hnd :
        (((cnState t s).freqMap.filterMap (cnWeightSeg t)).map
          Segment.text).Nodup :=
      (nodup_keysOf_cnFreqMap t s).sublist hsub
    have hperm :=
      (List.perm_insertionSort revLE
        ((cnState t s).freqMap.filterMap (cnWeightSeg t))).map Segment.text
    have hnd2 :
        ((((cnState t s).freqMap.filterMap (cnWeightSeg t)).insertionSort
          revLE).map Segment.text).Nodup :=
      hperm.nodup_iff.mpr hnd
    exact hnd2.sublist
      ((takeTopK_sublist topK
        (((cnState t s).freqMap.filterMap (cnWeightSeg t)).insertionSort
          revLE)).map Segment.text)

/-- C10: LoadDictionary overwrites the stop-word set of the extracter with
a fresh empty one and its segmenter with the newly loaded instance, leaving
the IDF table untouched; afterwards, and before a later LoadStopWords, the
stop-word filter excludes no token. -/
theorem c10_loadDictionary_resets (t : TagExtracter) (sg : Segmenter) :
    (∀ w, (t.LoadDictionary sg).stopWord.IsStopWord w = false) ∧
    (t.LoadDictionary sg).stopWord = NewStopWord ∧
    (t.LoadDictionary sg).seg = sg ∧
    (t.LoadDictionary sg).idf = t.idf := by
  refine ⟨fun w => ?_, rfl, rfl, rfl⟩
  rfl

end Jiebago
